import Mathlib

/-!
Verification of boost/mpi/collectives/gather.hpp.

The file shallowly embeds the gather collective of gather.hpp:

Per-rank state is explicit: a call of the collective is modelled as the local
computation of one participant `rank`, given every participant's input (the
global state of the group) and the participant's own output buffer.  The
transport layer (MPI_Gather / MPI_Gatherv) and the packed-archive codec are the
external collaborators of spec section 6 and are modelled by their contracts;
everything else is translated from the C++ source.

Machine vectors become lists; an out-of-bounds vector access (C++ undefined
behavior) makes the model return `none`; a failed archive read (a C++
exception) yields `Except.error` carrying the output buffer as written so far,
mirroring the caller-visible partial mutation when the exception propagates.
-/

set_option maxHeartbeats 1000000

namespace GatherHpp

/-- Model of the C++ type-level data of a value type T: the
is_mpi_datatype trait used for dispatch, together with the packed-archive
codec (packed_oarchive operator shift-out / packed_iarchive shift-in) that
serializes one value of T to and from bytes (byte type beta).  The codec is
the external serialization collaborator of spec section 6. -/
structure MpiType (alpha beta : Type) where
  isMpiDatatype : Bool
  enc : alpha → List beta
  dec : List beta → Option (alpha × List beta)

/-- Sequential packed_oarchive: oa shift-out in_values[0], ..., in_values[n-1]
(gather.hpp lines 81-84 write the values one after the other into one
contiguous archive). -/
def encodeAll {α β : Type} (t : MpiType α β) (vs : List α) : List β :=
  (vs.map t.enc).flatten

/-- A checked vector write v[i] = x: out-of-bounds is C++ UB, modelled none. -/
def setChecked {γ : Type} (l : List γ) (i : Nat) (x : γ) : Option (List γ) :=
  if i < l.length then some (l.set i x) else none

/-- The loop of detail::sizes2offset: starting at index i, run the body
offsets[i+1] = offsets[i] + sizes[i] for `fuel` iterations, with every vector
access bounds-checked. -/
def s2oIter (sizes : List Nat) : Nat → Nat → List Nat → Option (List Nat)
  | 0, _, offsets => some offsets
  | fuel + 1, i, offsets =>
    match offsets.get? i, sizes.get? i with
    | some oi, some si =>
      match setChecked offsets (i + 1) (oi + si) with
      | some offsets2 => s2oIter sizes fuel (i + 1) offsets2
      | none => none
    | _, _ => none

/-- detail::sizes2offset (gather.hpp lines 58-67): assert
offsets.size() == sizes.size(), write offsets[0] = 0, then run the loop for
i in [0, sizes.size()-1).  A failed assertion or an out-of-bounds vector
access is modelled as none.  (When sizes is empty the C++ loop bound
sizes.size()-1 wraps around as unsigned arithmetic, but the unconditional
write offsets[0] = 0 is already out of bounds before the loop is reached, so
the model fails there.) -/
def sizes2offset (sizes offsets : List Nat) : Option (List Nat) :=
  if offsets.length = sizes.length then
    match setChecked offsets 0 0 with
    | some offsets1 => s2oIter sizes (sizes.length - 1) 0 offsets1
    | none => none
  else none

/-- Write the elements of xs into out at positions pos, pos+1, ...: the shape
of std::copy into out_values + pos, and of elementwise archive reads into
out_values[pos + i].  (List.set ignores out-of-range positions.) -/
def setSlice {γ : Type} (out : List γ) (pos : Nat) : List γ → List γ
  | [] => out
  | x :: xs => setSlice (out.set pos x) (pos + 1) xs

/-- std::vector::resize(m): truncate, or extend with value-initialized d. -/
def vecResize {γ : Type} (l : List γ) (m : Nat) (d : γ) : List γ :=
  if m ≤ l.length then l.take m else l ++ List.replicate (m - l.length) d

/-- Transport contract of MPI_Gather at the root (spec section 6,
bulk_transfer_fixed): n elements from every rank land in out_values ordered
by sender rank.  allSend holds every rank's send buffer; the gathered block
overwrites out starting at position 0.  Used by
detail::gather_impl(comm, in_values, n, out_values, root, mpl::true_)
(gather.hpp lines 32-41). -/
def gather_impl_direct_root {γ : Type} (allSend : List (List γ)) (n : Nat)
    (out : List γ) : List γ :=
  setSlice out 0 ((allSend.map fun l => l.take n).flatten)

/-- gather(comm, in_value, root) at T = int (gather.hpp lines 135-140):
BOOST_ASSERT(comm.rank() != root), then the direct non-root impl, which is a
send-only MPI_Gather with no local effect.  none models the assertion
firing. -/
def gather_scalar_nonroot_int (rank root : Nat) : Option Unit :=
  if rank = root then none else some ()

/-- The T = int instantiation of
gather(comm, in_value, out_values : std::vector, root) (gather.hpp lines
142-153): is_mpi_datatype resolves to mpl::true_, so the root resizes
out_values to comm.size() and runs the direct impl on it, and a non-root rank
goes through the asserting non-root overload, leaving out_values untouched.
This is the routine the serialized path re-invokes for its Size Exchange
(line 86). -/
def gather_int_into_vector (allSend : List Nat) (rank root : Nat)
    (out : List Nat) : Option (List Nat) :=
  if rank = root then
    some (gather_impl_direct_root (allSend.map fun x => [x]) 1
      (vecResize out allSend.length 0))
  else
    (gather_scalar_nonroot_int rank root).map fun _ => out

/-- Transport contract of MPI_Gatherv at the root (spec section 6,
bulk_transfer_variable): rank k contributes counts[k] bytes of its payload,
placed at byte offset offsets[k] of the receive buffer buf. -/
def gatherv_write {β : Type} (payloads : List (List β)) (counts offsets : List Nat)
    (buf : List β) : List β :=
  match payloads, counts, offsets with
  | p :: ps, c :: cs, o :: os => gatherv_write ps cs os (setSlice buf o (p.take c))
  | _, _, _ => buf

/-- k sequential archive reads ia shift-in out_values[pos], out_values[pos+1],
... from buffer buf (gather.hpp lines 103-106).  A failed read throws; the
.error carries out as written so far, since the caller's buffer keeps its
partial contents when the exception propagates. -/
def decodeInto {α β : Type} (t : MpiType α β) :
    Nat → List β → Nat → List α → Except (List α) (List α)
  | 0, _, _, out => .ok out
  | k + 1, buf, pos, out =>
    match t.dec buf with
    | none => .error out
    | some (a, buf2) => decodeInto t k buf2 (pos + 1) (out.set pos a)

/-- Proof-side view of k sequential archive reads: the values decoded before
the first failure, and (on success) the remaining buffer. -/
def decodeVals {α β : Type} (t : MpiType α β) :
    Nat → List β → List α × Option (List β)
  | 0, buf => ([], some buf)
  | k + 1, buf =>
    match t.dec buf with
    | none => ([], none)
    | some (a, buf2) =>
      let r := decodeVals t k buf2
      (a :: r.1, r.2)

/-- The decode loop of detail::gather_impl (serialized, root), gather.hpp
lines 99-108: for src in [0, nproc), the root copies its own in_values
directly into out_values[n*src ..] and, for every other sender, decodes n
values from the receive buffer starting at byte offset offsets[src].  fuel is
the number of senders still to process. -/
def decodeLoop {α β : Type} (t : MpiType α β) (localVals : List α) (recv : List β)
    (offsets : List Nat) (n root : Nat) :
    Nat → Nat → List α → Except (List α) (List α)
  | 0, _, out => .ok out
  | fuel + 1, src, out =>
    if src = root then
      decodeLoop t localVals recv offsets n root fuel (src + 1)
        (setSlice out (n * src) (localVals.take n))
    else
      match decodeInto t n (recv.drop (offsets.getD src 0)) (n * src) out with
      | .error out2 => .error out2
      | .ok out2 => decodeLoop t localVals recv offsets n root fuel (src + 1) out2

/-- Per-rank encoded payloads: each participant serializes its n values
(gather.hpp lines 81-84 executed by every rank). -/
def payloadsOf {α β : Type} (t : MpiType α β) (allVals : List (List α)) (n : Nat) :
    List (List β) :=
  allVals.map fun v => encodeAll t (v.take n)

/-- detail::gather_impl(comm, in_values, n, out_values, root, mpl::false_)
(gather.hpp lines 72-110), the serialized path, as the local computation of
participant rank.  allVals holds every participant's input values (the global
state of the collective); out is the caller's out_values buffer, with the
empty list modelling the null pointer passed by the non-root wrapper (line
120); z is the zero byte of the value-initialized receive buffer.  Returns
none on C++ UB, .error on an archive exception (carrying out as mutated so
far), and .ok with the final out_values otherwise. -/
def gather_impl_ser {α β : Type} (t : MpiType α β) (z : β) (allVals : List (List α))
    (n rank root : Nat) (out : List α) : Option (Except (List α) (List α)) :=
  (gather_int_into_vector ((payloadsOf t allVals n).map List.length) rank root []).bind
    fun asizes =>
      (if rank = root then sizes2offset asizes (List.replicate allVals.length 0)
       else some (List.replicate allVals.length 0)).bind fun offsets =>
        if rank = root then
          some (decodeLoop t (allVals.getD rank [])
            (gatherv_write (payloadsOf t allVals n) asizes offsets
              (List.replicate asizes.sum z))
            offsets n root allVals.length 0 out)
        else
          some (.ok out)

/-- gather(comm, in_values, n, out_values : T*, root) (gather.hpp lines
155-165): dispatch on is_mpi_datatype; the root runs the root impl on its
buffer, a non-root rank runs the non-root impl (which for the serialized
path forwards to the root impl with a null out_values, line 120) and leaves
the caller's out untouched. -/
def gather_array_ptr {α β : Type} (t : MpiType α β) (z : β) (allVals : List (List α))
    (n rank root : Nat) (out : List α) : Option (Except (List α) (List α)) :=
  if rank = root then
    if t.isMpiDatatype then some (.ok (gather_impl_direct_root allVals n out))
    else gather_impl_ser t z allVals n rank root out
  else
    if t.isMpiDatatype then some (.ok out)
    else
      (gather_impl_ser t z allVals n rank root []).map fun r =>
        match r with
        | .ok _ => .ok out
        | .error _ => .error out

/-- gather(comm, in_value, out_values : T*, root) (gather.hpp lines 124-133):
the scalar form, identical to the array form with the address of the single
value and count 1. -/
def gather_scalar_ptr {α β : Type} (t : MpiType α β) (z : β) (allScalars : List α)
    (rank root : Nat) (out : List α) : Option (Except (List α) (List α)) :=
  gather_array_ptr t z (allScalars.map fun a => [a]) 1 rank root out

/-- gather(comm, in_value, root) (gather.hpp lines 135-140):
BOOST_ASSERT(comm.rank() != root), then the non-root impl.  none models the
assertion firing. -/
def gather_scalar_nonroot {α β : Type} (t : MpiType α β) (z : β) (allScalars : List α)
    (rank root : Nat) : Option Unit :=
  if rank = root then none
  else if t.isMpiDatatype then some ()
  else (gather_impl_ser t z (allScalars.map fun a => [a]) 1 rank root []).map fun _ => ()

/-- gather(comm, in_values, n, root) (gather.hpp lines 180-185): the array
non-root overload, BOOST_ASSERT(comm.rank() != root), then the non-root
impl. -/
def gather_array_nonroot {α β : Type} (t : MpiType α β) (z : β) (allVals : List (List α))
    (n rank root : Nat) : Option Unit :=
  if rank = root then none
  else if t.isMpiDatatype then some ()
  else (gather_impl_ser t z allVals n rank root []).map fun _ => ()

/-- gather(comm, in_value, out_values : std::vector, root) (gather.hpp lines
142-153): the root resizes out_values to comm.size() and delegates to the
pointer overload; a non-root rank delegates to the asserting non-root
overload and leaves out_values untouched.  d is the value-initialization
default used by resize. -/
def gather_scalar_into_vector {α β : Type} (t : MpiType α β) (z : β) (d : α)
    (allScalars : List α) (rank root : Nat) (out : List α) :
    Option (Except (List α) (List α)) :=
  if rank = root then
    gather_scalar_ptr t z allScalars rank root (vecResize out allScalars.length d)
  else
    (gather_scalar_nonroot t z allScalars rank root).map fun _ => .ok out

/-- gather(comm, in_values, n, out_values : std::vector, root) (gather.hpp
lines 167-178): the root resizes out_values to comm.size() * n and delegates
to the pointer overload; a non-root rank delegates to the asserting non-root
overload and leaves out_values untouched. -/
def gather_array_into_vector {α β : Type} (t : MpiType α β) (z : β) (d : α)
    (allVals : List (List α)) (n rank root : Nat) (out : List α) :
    Option (Except (List α) (List α)) :=
  if rank = root then
    gather_array_ptr t z allVals n rank root (vecResize out (allVals.length * n) d)
  else
    (gather_array_nonroot t z allVals n rank root).map fun _ => .ok out

/-- The protocol phases of the serialized path (spec section 4.4). -/
inductive SerPhase where
  | encodePhase
  | sizeExchange
  | offsetCompute
  | payloadExchange
  | decodePhase
deriving DecidableEq

/-- The sequence of phases participant rank executes in detail::gather_impl
(serialized), transcribed from the control flow of gather.hpp lines 77-109:
every rank encodes (81-84), joins the size gather (86) and the payload
gather (94-97); only the root runs sizes2offset (92) and the decode loop
(98-108). -/
def serPhases (rank root : Nat) : List SerPhase :=
  [SerPhase.encodePhase, SerPhase.sizeExchange]
    ++ (if rank = root then [SerPhase.offsetCompute] else [])
    ++ [SerPhase.payloadExchange]
    ++ (if rank = root then [SerPhase.decodePhase] else [])

/-- Modelled from the spec (section 4.4 step 2): the intended result of the
Size Exchange, namely the Size Vector (index = sender rank, value = that
sender's payload byte length) on the root and nothing on any other rank.
Used as the specification side of the refinement claim about the recursive
size gather. -/
def sizeExchangeSpec (lens : List Nat) (rank root : Nat) : List Nat :=
  if rank = root then lens else []

/-- The length-n slice of the Assembled Result belonging to sender k:
out_values[k*n .. k*n+n). -/
def resultSlice {α : Type} (res : List α) (k n : Nat) : List α :=
  (res.drop (k * n)).take n

/-- The intended Offset Vector: offset[k] is the sum of sizes[0..k). -/
def offsetsOf (sizes : List Nat) : List Nat :=
  (List.range sizes.length).map fun k => (sizes.take k).sum

/-- The length of the buffer a call outcome carries (final on .ok, partial on
.error). -/
def exceptLen {α : Type} : Except (List α) (List α) → Nat
  | .ok l => l.length
  | .error l => l.length

/-- A concrete serializable type for witnesses: one value of type Nat encodes
to the one-element byte list [a], and decoding faithfully takes one byte. -/
def natCodec : MpiType Nat Nat where
  isMpiDatatype := false
  enc := fun a => [a]
  dec := fun buf =>
    match buf with
    | [] => none
    | b :: r => some (b, r)

/-- A concrete type whose decode is detectably lossy: a value a encodes to
[a + 1] and decoding returns the raw byte, so one encode/decode round trip
adds one.  Exposes whether a path really performs the round trip. -/
def natShiftCodec : MpiType Nat Nat where
  isMpiDatatype := false
  enc := fun a => [a + 1]
  dec := fun buf =>
    match buf with
    | [] => none
    | b :: r => some (b, r)

/-- A concrete type whose decode fails on the byte 99: used to drive the
decode-failure path. -/
def natBadCodec : MpiType Nat Nat where
  isMpiDatatype := false
  enc := fun a => [a]
  dec := fun buf =>
    match buf with
    | [] => none
    | b :: r => if b = 99 then none else some (b, r)

/-! Helper lemmas about the buffer-writing primitives. -/

theorem setSlice_length {γ : Type} (xs : List γ) : ∀ (out : List γ) (pos : Nat),
    (setSlice out pos xs).length = out.length := by
  induction xs with
  | nil => intro out pos; rfl
  | cons x xs ih =>
    intro out pos
    simp only [setSlice, ih, List.length_set]

theorem take_set_succ {γ : Type} : ∀ (l : List γ) (pos : Nat) (x : γ),
    pos < l.length → (l.set pos x).take (pos + 1) = l.take pos ++ [x] := by
  intro l
  induction l with
  | nil => intro pos x h; simp at h
  | cons y t ih =>
    intro pos x h
    cases pos with
    | zero => simp
    | succ p =>
      have hp : p < t.length := by simpa using h
      simp [ih p x hp]

theorem drop_set_gt {γ : Type} : ∀ (l : List γ) (pos m : Nat) (x : γ),
    pos < m → (l.set pos x).drop m = l.drop m := by
  intro l
  induction l with
  | nil => intro pos m x _; simp
  | cons y t ih =>
    intro pos m x h
    cases pos with
    | zero =>
      cases m with
      | zero => omega
      | succ m2 => simp
    | succ p =>
      cases m with
      | zero => omega
      | succ m2 => simpa using ih p m2 x (by omega)

theorem setSlice_concat {γ : Type} : ∀ (xs out : List γ) (pos : Nat),
    pos + xs.length ≤ out.length →
    setSlice out pos xs = out.take pos ++ xs ++ out.drop (pos + xs.length) := by
  intro xs
  induction xs with
  | nil =>
    intro out pos h
    simp [setSlice, List.take_append_drop]
  | cons x xs ih =>
    intro out pos h
    have hpos : pos < out.length := by simp at h; omega
    have hlen : pos + 1 + xs.length ≤ (out.set pos x).length := by
      simp [List.length_set]; simp at h; omega
    have e1 : (out.set pos x).take (pos + 1) = out.take pos ++ [x] :=
      take_set_succ out pos x hpos
    have e2 : (out.set pos x).drop (pos + 1 + xs.length) = out.drop (pos + 1 + xs.length) :=
      drop_set_gt out pos (pos + 1 + xs.length) x (by omega)
    have e3 : pos + 1 + xs.length = pos + (x :: xs).length := by simp; omega
    calc setSlice out pos (x :: xs)
        = setSlice (out.set pos x) (pos + 1) xs := rfl
      _ = (out.set pos x).take (pos + 1) ++ xs ++ (out.set pos x).drop (pos + 1 + xs.length) :=
          ih (out.set pos x) (pos + 1) hlen
      _ = (out.take pos ++ [x]) ++ xs ++ out.drop (pos + (x :: xs).length) := by
          rw [e1, e2, e3]
      _ = out.take pos ++ (x :: xs) ++ out.drop (pos + (x :: xs).length) := by
          simp

theorem setSlice_full {γ : Type} (out xs : List γ) (h : out.length = xs.length) :
    setSlice out 0 xs = xs := by
  rw [setSlice_concat xs out 0 (by omega)]
  simp [← h]

theorem vecResize_length {γ : Type} (l : List γ) (m : Nat) (d : γ) :
    (vecResize l m d).length = m := by
  unfold vecResize
  by_cases h : m ≤ l.length
  · rw [if_pos h, List.length_take]
    omega
  · rw [if_neg h, List.length_append, List.length_replicate]
    omega

theorem vecResize_nil {γ : Type} (m : Nat) (d : γ) :
    vecResize ([] : List γ) m d = List.replicate m d := by
  unfold vecResize
  cases m with
  | zero => simp
  | succ k => simp

theorem flatten_map_singleton {γ : Type} : ∀ (l : List γ),
    (l.map fun x => [x]).flatten = l := by
  intro l
  induction l with
  | nil => rfl
  | cons x t ih => simp [ih]

theorem length_flatten_uniform {γ : Type} : ∀ (L : List (List γ)) (n : Nat),
    (∀ l ∈ L, l.length = n) → L.flatten.length = L.length * n := by
  intro L
  induction L with
  | nil => intro n _; simp
  | cons l t ih =>
    intro n hall
    have hl : l.length = n := hall l (by simp)
    have ht : t.flatten.length = t.length * n := ih n (fun x hx => hall x (by simp [hx]))
    simp only [List.flatten_cons, List.length_append, List.length_cons, hl, ht, Nat.succ_mul]
    omega

theorem resultSlice_flatten {γ : Type} : ∀ (L : List (List γ)) (n k : Nat),
    (∀ l ∈ L, l.length = n) → k < L.length →
    resultSlice L.flatten k n = L.getD k [] := by
  intro L
  induction L with
  | nil => intro n k _ h; simp at h
  | cons l t ih =>
    intro n k hall hk
    cases k with
    | zero =>
      have hl : l.length = n := hall l (by simp)
      simp [resultSlice, List.take_left' hl]
    | succ k =>
      have hl : l.length = n := hall l (by simp)
      have e : (k + 1) * n = l.length + k * n := by rw [hl]; ring
      have ht : k < t.length := by simpa using hk
      have := ih n k (fun x hx => hall x (by simp [hx])) ht
      simp only [resultSlice, List.flatten_cons, e, List.drop_append] at *
      simpa using this

theorem resultSlice_append_left {γ : Type} (J T : List γ) (k n : Nat)
    (h : k * n + n ≤ J.length) :
    resultSlice (J ++ T) k n = resultSlice J k n := by
  unfold resultSlice
  rw [List.drop_append_of_le_length (by omega)]
  rw [List.take_append_of_le_length (by rw [List.length_drop]; omega)]

theorem resultSlice_append_drop {γ : Type} (P out : List γ) (k n : Nat)
    (h : P.length ≤ k * n) :
    resultSlice (P ++ out.drop P.length) k n = resultSlice out k n := by
  unfold resultSlice
  have e : k * n = P.length + (k * n - P.length) := by omega
  rw [e, List.drop_append, List.drop_drop]

/-! Characterization of sizes2offset. -/

theorem get?_set_self_of_lt {γ : Type} (l : List γ) (i : Nat) (x : γ)
    (h : i < l.length) : (l.set i x).get? i = some x := by
  rw [List.get?_set_eq]
  rw [List.get?_eq_get h]
  rfl

theorem offsetsOf_get? (sizes : List Nat) (k : Nat) (h : k < sizes.length) :
    (offsetsOf sizes).get? k = some ((sizes.take k).sum) := by
  unfold offsetsOf
  rw [List.get?_map, List.get?_range h]
  rfl

theorem offsetsOf_length (sizes : List Nat) : (offsetsOf sizes).length = sizes.length := by
  simp [offsetsOf]

theorem offsetsOf_getD (sizes : List Nat) (k : Nat) (h : k < sizes.length) :
    (offsetsOf sizes).getD k 0 = (sizes.take k).sum := by
  rw [List.getD_eq_get?, offsetsOf_get? sizes k h]
  rfl

theorem sum_take_succ_getD (sizes : List Nat) (k : Nat) (h : k < sizes.length) :
    (sizes.take (k + 1)).sum = (sizes.take k).sum + sizes.getD k 0 := by
  have h1 : sizes.take (k + 1) = sizes.take k ++ [sizes.getD k 0] := by
    rw [List.take_succ, List.getElem?_eq_getElem h, List.getD_eq_getElem sizes 0 h]
    rfl
  rw [h1, List.sum_append]
  simp

theorem s2oIter_spec (sizes : List Nat) : ∀ (fuel i : Nat) (offs : List Nat),
    offs.length = sizes.length →
    i + fuel + 1 = sizes.length →
    (∀ j, j ≤ i → offs.get? j = some ((sizes.take j).sum)) →
    s2oIter sizes fuel i offs = some (offsetsOf sizes) := by
  intro fuel
  induction fuel with
  | zero =>
    intro i offs hlen hcount hpre
    have : offs = offsetsOf sizes := by
      apply List.ext_get?
      intro j
      by_cases hj : j < sizes.length
      · rw [offsetsOf_get? sizes j hj, hpre j (by omega)]
      · rw [List.get?_eq_none.mpr (by omega), List.get?_eq_none.mpr (by rw [offsetsOf_length]; omega)]
    simp [s2oIter, this]
  | succ fuel ih =>
    intro i offs hlen hcount hpre
    have hi : i < sizes.length := by omega
    have hi1 : i + 1 < sizes.length := by omega
    have hoffs : offs.get? i = some ((sizes.take i).sum) := hpre i (by omega)
    have hsz : sizes.get? i = some (sizes.getD i 0) := by
      rw [List.getD_eq_get sizes 0 hi, List.get?_eq_get hi]
    have hset : setChecked offs (i + 1) ((sizes.take i).sum + sizes.getD i 0)
        = some (offs.set (i + 1) ((sizes.take i).sum + sizes.getD i 0)) := by
      unfold setChecked
      rw [if_pos (by omega)]
    rw [s2oIter, hoffs, hsz]
    show (match setChecked offs (i + 1) ((sizes.take i).sum + sizes.getD i 0) with
          | some offsets2 => s2oIter sizes fuel (i + 1) offsets2
          | none => none) = some (offsetsOf sizes)
    rw [hset]
    show s2oIter sizes fuel (i + 1)
      (offs.set (i + 1) ((sizes.take i).sum + sizes.getD i 0)) = some (offsetsOf sizes)
    apply ih (i + 1)
    · simp [List.length_set, hlen]
    · omega
    · intro j hj
      by_cases hji : j = i + 1
      · subst hji
        rw [get?_set_self_of_lt offs (i + 1) _ (by omega)]
        rw [sum_take_succ_getD sizes i hi]
      · rw [List.get?_set_ne _ offs (by omega)]
        exact hpre j (by omega)

theorem sizes2offset_eq (sizes offsets : List Nat) (hne : sizes ≠ [])
    (hlen : offsets.length = sizes.length) :
    sizes2offset sizes offsets = some (offsetsOf sizes) := by
  have hpos : 0 < sizes.length := List.length_pos.mpr hne
  unfold sizes2offset
  rw [if_pos hlen]
  have hset : setChecked offsets 0 0 = some (offsets.set 0 0) := by
    unfold setChecked
    rw [if_pos (by omega)]
  rw [hset]
  apply s2oIter_spec sizes (sizes.length - 1) 0
  · simp [List.length_set, hlen]
  · omega
  · intro j hj
    have hj0 : j = 0 := by omega
    subst hj0
    rw [get?_set_self_of_lt offsets 0 0 (by omega)]
    rfl

theorem sum_take_mono (sizes : List Nat) {j k : Nat} (h : j ≤ k) :
    (sizes.take j).sum ≤ (sizes.take k).sum := by
  have e : k = j + (k - j) := by omega
  rw [e, List.take_add, List.sum_append]
  omega

theorem biUnion_Ico_chain (sizes : List Nat) : ∀ m : Nat,
    (Finset.range m).biUnion
      (fun k => Finset.Ico ((sizes.take k).sum) ((sizes.take (k + 1)).sum))
      = Finset.Ico 0 ((sizes.take m).sum) := by
  intro m
  induction m with
  | zero => simp
  | succ m ih =>
    rw [Finset.range_succ, Finset.biUnion_insert, ih, Finset.union_comm]
    exact Finset.Ico_union_Ico_eq_Ico (Nat.zero_le _) (sum_take_mono sizes (by omega))

/-- Claim C2: for every non-empty size vector s (and an offsets vector of the
same length, as the assertion demands), sizes2offset returns offsets with
offsets[0] = 0 and offsets[k] = offsets[k-1] + s[k-1] for k in [1, N); the
byte segments [offsets[k], offsets[k]+s[k]) are pairwise disjoint and jointly
cover [0, sum s); and in the degenerate case N = 1 the result is [0] and the
loop body never executes. -/
theorem sizes2offset_offsets_spec (sizes offsets : List Nat) (hne : sizes ≠ [])
    (hlen : offsets.length = sizes.length) :
    sizes2offset sizes offsets = some (offsetsOf sizes) ∧
    (offsetsOf sizes).getD 0 0 = 0 ∧
    (∀ k, 0 < k → k < sizes.length →
      (offsetsOf sizes).getD k 0
        = (offsetsOf sizes).getD (k - 1) 0 + sizes.getD (k - 1) 0) ∧
    (∀ j k, j < sizes.length → k < sizes.length → j ≠ k →
      Disjoint
        (Finset.Ico ((offsetsOf sizes).getD j 0)
          ((offsetsOf sizes).getD j 0 + sizes.getD j 0))
        (Finset.Ico ((offsetsOf sizes).getD k 0)
          ((offsetsOf sizes).getD k 0 + sizes.getD k 0))) ∧
    ((Finset.range sizes.length).biUnion
        (fun k => Finset.Ico ((offsetsOf sizes).getD k 0)
          ((offsetsOf sizes).getD k 0 + sizes.getD k 0))
      = Finset.range sizes.sum) ∧
    (sizes.length = 1 → offsetsOf sizes = [0] ∧
      s2oIter sizes (sizes.length - 1) 0 (offsets.set 0 0) = some (offsets.set 0 0)) := by
  have hpos : 0 < sizes.length := List.length_pos.mpr hne
  have hseg : ∀ k, k < sizes.length →
      Finset.Ico ((offsetsOf sizes).getD k 0)
          ((offsetsOf sizes).getD k 0 + sizes.getD k 0)
        = Finset.Ico ((sizes.take k).sum) ((sizes.take (k + 1)).sum) := by
    intro k hk
    rw [offsetsOf_getD sizes k hk, sum_take_succ_getD sizes k hk]
  refine ⟨sizes2offset_eq sizes offsets hne hlen, ?_, ?_, ?_, ?_, ?_⟩
  · rw [offsetsOf_getD sizes 0 hpos]
    rfl
  · intro k hk0 hk
    obtain ⟨m, rfl⟩ : ∃ m, k = m + 1 := ⟨k - 1, by omega⟩
    rw [offsetsOf_getD sizes (m + 1) hk]
    have e : m + 1 - 1 = m := by omega
    rw [e, offsetsOf_getD sizes m (by omega)]
    exact sum_take_succ_getD sizes m (by omega)
  · have main : ∀ a b, a < b → a < sizes.length → b < sizes.length →
        Disjoint
          (Finset.Ico ((offsetsOf sizes).getD a 0)
            ((offsetsOf sizes).getD a 0 + sizes.getD a 0))
          (Finset.Ico ((offsetsOf sizes).getD b 0)
            ((offsetsOf sizes).getD b 0 + sizes.getD b 0)) := by
      intro a b hab ha hb
      rw [hseg a ha, hseg b hb]
      refine Finset.disjoint_left.mpr ?_
      intro x hx hx2
      rw [Finset.mem_Ico] at hx hx2
      have hmono : (sizes.take (a + 1)).sum ≤ (sizes.take b).sum :=
        sum_take_mono sizes (by omega)
      omega
    intro j k hj hk hjk
    rcases Nat.lt_or_ge j k with h | h
    · exact main j k h hj hk
    · exact (main k j (by omega) hk hj).symm
  · rw [Finset.biUnion_congr rfl (fun k hk => hseg k (Finset.mem_range.mp hk))]
    rw [biUnion_Ico_chain sizes sizes.length, List.take_length, Finset.range_eq_Ico]
  · intro h1
    obtain ⟨a, rfl⟩ := List.length_eq_one.mp h1
    constructor
    · rfl
    · rfl

/-- Witness for C2 at sizes = [2, 0, 3], offsets = [9, 9, 9]. -/
theorem sizes2offset_offsets_spec_witness :
    sizes2offset [2, 0, 3] [9, 9, 9] = some (offsetsOf [2, 0, 3]) :=
  (sizes2offset_offsets_spec [2, 0, 3] [9, 9, 9] (by decide) (by decide)).1

/-- Claim C10: sizes2offset has the implicit precondition that sizes is
non-empty: the only checked precondition is length equality, and with an
empty sizes vector the unconditional write offsets[0] = 0 is out of bounds
(the model returns none); with a non-empty sizes vector and an offsets vector
of the same length, every access is in bounds and the call succeeds. -/
theorem sizes2offset_empty_oob :
    sizes2offset [] [] = none ∧
    ∀ (sizes offsets : List Nat), sizes ≠ [] → offsets.length = sizes.length →
      (sizes2offset sizes offsets).isSome := by
  constructor
  · rfl
  · intro sizes offsets hne hlen
    rw [sizes2offset_eq sizes offsets hne hlen]
    rfl

/-- Witness for C10 at sizes = [5], offsets = [7]. -/
theorem sizes2offset_empty_oob_witness : (sizes2offset [5] [7]).isSome :=
  sizes2offset_empty_oob.2 [5] [7] (by decide) (by decide)

/-! Codec and decode lemmas. -/

theorem encodeAll_nil {α β : Type} (t : MpiType α β) : encodeAll t [] = [] := rfl

theorem encodeAll_cons {α β : Type} (t : MpiType α β) (v : α) (vs : List α) :
    encodeAll t (v :: vs) = t.enc v ++ encodeAll t vs := by
  simp [encodeAll]

theorem decodeVals_encodeAll {α β : Type} (t : MpiType α β) (f : α → α)
    (hdec : ∀ a rest, t.dec (t.enc a ++ rest) = some (f a, rest)) :
    ∀ (vs : List α) (rest : List β),
      decodeVals t vs.length (encodeAll t vs ++ rest) = (vs.map f, some rest) := by
  intro vs
  induction vs with
  | nil =>
    intro rest
    simp [decodeVals, encodeAll_nil]
  | cons v vs ih =>
    intro rest
    have e : encodeAll t (v :: vs) ++ rest = t.enc v ++ (encodeAll t vs ++ rest) := by
      rw [encodeAll_cons, List.append_assoc]
    rw [List.length_cons, e, decodeVals, hdec v (encodeAll t vs ++ rest)]
    show (f v :: (decodeVals t vs.length (encodeAll t vs ++ rest)).1,
        (decodeVals t vs.length (encodeAll t vs ++ rest)).2)
      = (List.map f (v :: vs), some rest)
    rw [ih rest]
    rfl

theorem decodeVals_length_le {α β : Type} (t : MpiType α β) : ∀ (k : Nat) (buf : List β),
    (decodeVals t k buf).1.length ≤ k := by
  intro k
  induction k with
  | zero => intro buf; simp [decodeVals]
  | succ k ih =>
    intro buf
    rw [decodeVals]
    cases h : t.dec buf with
    | none => simp
    | some p => simpa using ih p.2

theorem decodeVals_length_of_isSome {α β : Type} (t : MpiType α β) :
    ∀ (k : Nat) (buf : List β), (decodeVals t k buf).2.isSome →
      (decodeVals t k buf).1.length = k := by
  intro k
  induction k with
  | zero => intro buf _; simp [decodeVals]
  | succ k ih =>
    intro buf hs
    rw [decodeVals] at hs ⊢
    cases h : t.dec buf with
    | none => rw [h] at hs; simp at hs
    | some p =>
      rw [h] at hs
      simpa using ih p.2 (by simpa using hs)

theorem decodeInto_eq_ok {α β : Type} (t : MpiType α β) :
    ∀ (k : Nat) (buf : List β) (as : List α) (buf2 : List β) (pos : Nat) (out : List α),
    decodeVals t k buf = (as, some buf2) →
    decodeInto t k buf pos out = .ok (setSlice out pos as) := by
  intro k
  induction k with
  | zero =>
    intro buf as buf2 pos out h
    rw [decodeVals] at h
    have : as = [] := by
      have := congrArg Prod.fst h
      simpa using this.symm
    subst this
    rfl
  | succ k ih =>
    intro buf as buf2 pos out h
    rw [decodeVals] at h
    cases hd : t.dec buf with
    | none =>
      rw [hd] at h
      have := congrArg Prod.snd h
      simp at this
    | some p =>
      rw [hd] at h
      have h1 : as = p.1 :: (decodeVals t k p.2).1 := by
        have := congrArg Prod.fst h
        simpa using this.symm
      have h2 : (decodeVals t k p.2).2 = some buf2 := by
        have := congrArg Prod.snd h
        simpa using this
      have hrec : decodeVals t k p.2 = ((decodeVals t k p.2).1, some buf2) := by
        rw [← h2]
      rw [decodeInto, hd]
      show decodeInto t k p.2 (pos + 1) (out.set pos p.1) = .ok (setSlice out pos as)
      rw [ih p.2 (decodeVals t k p.2).1 buf2 (pos + 1) (out.set pos p.1) hrec, h1]
      rfl

theorem decodeInto_eq_error {α β : Type} (t : MpiType α β) :
    ∀ (k : Nat) (buf : List β) (as : List α) (pos : Nat) (out : List α),
    decodeVals t k buf = (as, none) →
    decodeInto t k buf pos out = .error (setSlice out pos as) := by
  intro k
  induction k with
  | zero =>
    intro buf as pos out h
    rw [decodeVals] at h
    have := congrArg Prod.snd h
    simp at this
  | succ k ih =>
    intro buf as pos out h
    rw [decodeVals] at h
    cases hd : t.dec buf with
    | none =>
      rw [hd] at h
      have : as = [] := by
        have := congrArg Prod.fst h
        simpa using this.symm
      subst this
      rw [decodeInto, hd]
      rfl
    | some p =>
      rw [hd] at h
      have h1 : as = p.1 :: (decodeVals t k p.2).1 := by
        have := congrArg Prod.fst h
        simpa using this.symm
      have h2 : (decodeVals t k p.2).2 = none := by
        have := congrArg Prod.snd h
        simpa using this
      have hrec : decodeVals t k p.2 = ((decodeVals t k p.2).1, none) := by
        rw [← h2]
      rw [decodeInto, hd]
      show decodeInto t k p.2 (pos + 1) (out.set pos p.1) = .error (setSlice out pos as)
      rw [ih p.2 (decodeVals t k p.2).1 (pos + 1) (out.set pos p.1) hrec, h1]
      rfl

/-! The size exchange and the non-root serialized call. -/

theorem gather_int_root (L : List Nat) (r : Nat) :
    gather_int_into_vector L r r [] = some L := by
  unfold gather_int_into_vector gather_impl_direct_root
  rw [if_pos rfl, vecResize_nil]
  have e1 : ((L.map fun x => [x]).map fun l => l.take 1) = L.map fun x => [x] :=
    by
      rw [List.map_map]
      exact List.map_congr_left (fun a _ => rfl)
  rw [e1, flatten_map_singleton]
  rw [setSlice_full _ _ (by rw [List.length_replicate])]

theorem ser_nonroot_ok {α β : Type} (t : MpiType α β) (z : β) (allVals : List (List α))
    (n rank root : Nat) (out : List α) (h : rank ≠ root) :
    gather_impl_ser t z allVals n rank root out = some (.ok out) := by
  simp only [gather_impl_ser, gather_int_into_vector, gather_scalar_nonroot_int,
    if_neg h, Option.map_some', Option.some_bind]

/-! The receive buffer produced by the payload exchange. -/

theorem offsetsOf_cons (a : Nat) (l : List Nat) :
    offsetsOf (a :: l) = 0 :: (offsetsOf l).map (fun x => a + x) := by
  unfold offsetsOf
  rw [List.length_cons, List.range_succ_eq_map, List.map_cons, List.map_map, List.map_map]
  congr 1

theorem gatherv_write_gen {β : Type} (z : β) : ∀ (ps : List (List β)) (pre : List β),
    gatherv_write ps (ps.map List.length)
      ((offsetsOf (ps.map List.length)).map fun o => pre.length + o)
      (pre ++ List.replicate ((ps.map List.length).sum) z)
    = pre ++ ps.flatten := by
  intro ps
  induction ps with
  | nil => intro pre; simp [gatherv_write]
  | cons p ps ih =>
    intro pre
    rw [List.map_cons, offsetsOf_cons, List.map_cons, List.map_map]
    rw [List.sum_cons, List.replicate_add]
    show gatherv_write ps (ps.map List.length) _
        (setSlice (pre ++ (List.replicate p.length z ++ List.replicate ((ps.map List.length).sum) z))
          (pre.length + 0) (p.take p.length)) = _
    rw [List.take_length, Nat.add_zero]
    have hbuf : setSlice
        (pre ++ (List.replicate p.length z ++ List.replicate ((ps.map List.length).sum) z))
        pre.length p
        = (pre ++ p) ++ List.replicate ((ps.map List.length).sum) z := by
      rw [setSlice_concat p _ pre.length (by simp [List.length_replicate])]
      rw [List.take_left' rfl]
      have e2 : pre.length + p.length
          = pre.length + (List.replicate p.length z).length + 0 := by
        simp [List.length_replicate]
      rw [e2, ← List.length_append]
      rw [show pre ++ (List.replicate p.length z ++ List.replicate ((ps.map List.length).sum) z)
            = (pre ++ List.replicate p.length z) ++ List.replicate ((ps.map List.length).sum) z
          from by simp [List.append_assoc]]
      rw [List.drop_append]
      simp [List.append_assoc]
    rw [hbuf]
    have efun : ((fun x => pre.length + x) ∘ fun x => p.length + x)
        = fun o => (pre ++ p).length + o := by
      funext o
      simp [Function.comp, List.length_append]
      omega
    rw [efun, ih (pre ++ p), List.append_assoc]
    rfl

theorem gatherv_flatten {β : Type} (z : β) (ps : List (List β)) :
    gatherv_write ps (ps.map List.length) (offsetsOf (ps.map List.length))
      (List.replicate ((ps.map List.length).sum) z) = ps.flatten := by
  have h := gatherv_write_gen z ps []
  simp only [List.length_nil, Nat.zero_add, List.nil_append] at h
  rw [← h]
  congr 1
  rw [List.map_id']

theorem drop_flatten_front {β : Type} : ∀ (k : Nat) (ps : List (List β)),
    ps.flatten.drop (((ps.take k).map List.length).sum) = (ps.drop k).flatten := by
  intro k
  induction k with
  | zero => intro ps; simp
  | succ k ih =>
    intro ps
    cases ps with
    | nil => simp
    | cons p ps =>
      rw [List.take_succ_cons, List.map_cons, List.sum_cons, List.flatten_cons]
      rw [List.drop_append]
      exact ih ps

theorem offsets_payload_getD {β : Type} (ps : List (List β)) (k : Nat)
    (h : k < ps.length) :
    (offsetsOf (ps.map List.length)).getD k 0 = ((ps.take k).map List.length).sum := by
  rw [offsetsOf_getD _ k (by simpa using h), ← List.map_take]

theorem recv_drop_at {β : Type} (ps : List (List β)) (k : Nat) (h : k < ps.length) :
    ps.flatten.drop ((offsetsOf (ps.map List.length)).getD k 0) = (ps.drop k).flatten := by
  rw [offsets_payload_getD ps k h, drop_flatten_front]

theorem drop_flatten_cons {β : Type} (ps : List (List β)) (k : Nat) (h : k < ps.length) :
    (ps.drop k).flatten = ps.getD k [] ++ (ps.drop (k + 1)).flatten := by
  rw [List.drop_eq_get_cons h, List.flatten_cons, List.getD_eq_get ps [] h]

/-! Unfolding the serialized root call down to the decode loop. -/

theorem payloads_length {α β : Type} (t : MpiType α β) (allVals : List (List α)) (n : Nat) :
    (payloadsOf t allVals n).length = allVals.length := by
  simp [payloadsOf]

theorem payloads_getD {α β : Type} (t : MpiType α β) (allVals : List (List α))
    (n k : Nat) (h : k < allVals.length) :
    (payloadsOf t allVals n).getD k [] = encodeAll t ((allVals.getD k []).take n) := by
  unfold payloadsOf
  rw [List.getD_eq_get?, List.getD_eq_get?, List.get?_map, List.get?_eq_get h]
  rfl

theorem gather_impl_ser_root_unfold {α β : Type} (t : MpiType α β) (z : β)
    (allVals : List (List α)) (n root : Nat) (out : List α)
    (hN : 0 < allVals.length) :
    gather_impl_ser t z allVals n root root out
      = some (decodeLoop t (allVals.getD root []) ((payloadsOf t allVals n).flatten)
          (offsetsOf ((payloadsOf t allVals n).map List.length)) n root
          allVals.length 0 out) := by
  have hlens : ((payloadsOf t allVals n).map List.length).length = allVals.length := by
    rw [List.length_map, payloads_length]
  have hne : (payloadsOf t allVals n).map List.length ≠ [] :=
    List.ne_nil_of_length_pos (by omega)
  unfold gather_impl_ser
  rw [gather_int_root]
  simp only [Option.some_bind, eq_self_iff_true, if_true]
  rw [sizes2offset_eq _ _ hne (by rw [List.length_replicate, hlens])]
  simp only [Option.some_bind]
  rw [gatherv_flatten]

/-! The decode loop. -/

theorem decodeInto_len {α β : Type} (t : MpiType α β) :
    ∀ (k : Nat) (buf : List β) (pos : Nat) (out : List α),
    exceptLen (decodeInto t k buf pos out) = out.length := by
  intro k
  induction k with
  | zero => intro buf pos out; rfl
  | succ k ih =>
    intro buf pos out
    rw [decodeInto]
    cases h : t.dec buf with
    | none => rfl
    | some p =>
      show exceptLen (decodeInto t k p.2 (pos + 1) (out.set pos p.1)) = out.length
      rw [ih p.2 (pos + 1) (out.set pos p.1), List.length_set]

theorem decodeLoop_len {α β : Type} (t : MpiType α β) (lv : List α) (recv : List β)
    (offsets : List Nat) (n root : Nat) : ∀ (fuel src : Nat) (out : List α),
    exceptLen (decodeLoop t lv recv offsets n root fuel src out) = out.length := by
  intro fuel
  induction fuel with
  | zero => intro src out; rfl
  | succ fuel ih =>
    intro src out
    rw [decodeLoop]
    by_cases h : src = root
    · rw [if_pos h]
      rw [ih (src + 1) _]
      exact setSlice_length _ _ _
    · rw [if_neg h]
      cases hd : decodeInto t n (recv.drop (offsets.getD src 0)) (n * src) out with
      | error out2 =>
        show exceptLen (Except.error out2 : Except (List α) (List α)) = out.length
        have h2 := decodeInto_len t n (recv.drop (offsets.getD src 0)) (n * src) out
        rw [hd] at h2
        exact h2
      | ok out2 =>
        show exceptLen (decodeLoop t lv recv offsets n root fuel (src + 1) out2) = out.length
        rw [ih (src + 1) out2]
        have h2 := decodeInto_len t n (recv.drop (offsets.getD src 0)) (n * src) out
        rw [hd] at h2
        exact h2

theorem decodeLoop_n_zero {α β : Type} (t : MpiType α β) (lv : List α) (recv : List β)
    (offsets : List Nat) (root : Nat) : ∀ (fuel src : Nat) (out : List α),
    decodeLoop t lv recv offsets 0 root fuel src out = .ok out := by
  intro fuel
  induction fuel with
  | zero => intro src out; rfl
  | succ fuel ih =>
    intro src out
    rw [decodeLoop]
    by_cases h : src = root
    · rw [if_pos h]
      show decodeLoop t lv recv offsets 0 root fuel (src + 1) out = .ok out
      exact ih (src + 1) out
    · rw [if_neg h]
      show decodeLoop t lv recv offsets 0 root fuel (src + 1) out = .ok out
      exact ih (src + 1) out

theorem decodeLoop_ok {α β : Type} (t : MpiType α β) (lv : List α) (recv : List β)
    (offsets : List Nat) (n root N : Nat) (g : Nat → List α)
    (hroot : g root = lv.take n)
    (hdecode : ∀ j, j < N → j ≠ root →
      ∃ b2, decodeVals t n (recv.drop (offsets.getD j 0)) = (g j, some b2))
    (hglen : ∀ j, j < N → (g j).length = n) :
    ∀ (fuel src : Nat) (out : List α), src + fuel = N → out.length = n * N →
      decodeLoop t lv recv offsets n root fuel src out
        = .ok (out.take (n * src) ++ ((List.range' src fuel).map g).flatten) := by
  intro fuel
  induction fuel with
  | zero =>
    intro src out hsrc hout
    have hsN : src = N := by omega
    show (Except.ok out : Except (List α) (List α))
      = .ok (out.take (n * src) ++ ((List.range' src 0).map g).flatten)
    rw [show List.range' src 0 = [] from rfl, List.map_nil, List.flatten_nil,
      List.append_nil]
    rw [List.take_of_length_le (le_of_eq (by rw [hout, hsN]))]
  | succ fuel ih =>
    intro src out hsrc hout
    have hsrcN : src < N := by omega
    have hseg : (g src).length = n := hglen src hsrcN
    have hle : n * src + n ≤ out.length := by
      have h1 : n * (src + 1) ≤ n * N := Nat.mul_le_mul_left n (by omega)
      rw [Nat.mul_succ] at h1
      omega
    by_cases hsr : src = root
    · rw [decodeLoop, if_pos hsr]
      have hgs : g src = lv.take n := by rw [hsr, hroot]
      have hl2 : (lv.take n).length = n := by rw [← hgs]; exact hseg
      have e1 : setSlice out (n * src) (lv.take n)
          = out.take (n * src) ++ lv.take n ++ out.drop (n * src + n) := by
        rw [setSlice_concat _ _ _ (by rw [hl2]; omega), hl2]
      rw [e1]
      have hABC : (out.take (n * src) ++ lv.take n ++ out.drop (n * src + n)).length
          = n * N := by
        rw [List.length_append, List.length_append, List.length_take,
          List.length_drop, hl2]
        omega
      rw [ih (src + 1) _ (by omega) hABC]
      congr 1
      have hAB : (out.take (n * src) ++ lv.take n).length = n * (src + 1) := by
        rw [List.length_append, List.length_take, hl2, Nat.mul_succ]
        omega
      rw [List.take_left' hAB]
      rw [List.range'_succ, List.map_cons, List.flatten_cons, hgs,
        ← List.append_assoc]
    · rw [decodeLoop, if_neg hsr]
      obtain ⟨b2, hdv⟩ := hdecode src hsrcN hsr
      rw [decodeInto_eq_ok t n _ _ b2 (n * src) out hdv]
      show decodeLoop t lv recv offsets n root fuel (src + 1)
          (setSlice out (n * src) (g src))
        = .ok (out.take (n * src) ++ ((List.range' src (fuel + 1)).map g).flatten)
      have e1 : setSlice out (n * src) (g src)
          = out.take (n * src) ++ g src ++ out.drop (n * src + n) := by
        rw [setSlice_concat _ _ _ (by rw [hseg]; omega), hseg]
      rw [e1]
      have hABC : (out.take (n * src) ++ g src ++ out.drop (n * src + n)).length
          = n * N := by
        rw [List.length_append, List.length_append, List.length_take,
          List.length_drop, hseg]
        omega
      rw [ih (src + 1) _ (by omega) hABC]
      congr 1
      have hAB : (out.take (n * src) ++ g src).length = n * (src + 1) := by
        rw [List.length_append, List.length_take, hseg, Nat.mul_succ]
        omega
      rw [List.take_left' hAB]
      rw [List.range'_succ, List.map_cons, List.flatten_cons, ← List.append_assoc]

/-- The serialized root call with a decode detector f: if every decode of an
encoded value yields f of that value, the Assembled Result holds the root's
own values untouched and every other sender's values with f applied (showing
exactly which segments pass through the codec). -/
theorem gather_ser_root_detector {α β : Type} (t : MpiType α β) (z : β) (f : α → α)
    (hdec : ∀ a rest, t.dec (t.enc a ++ rest) = some (f a, rest))
    (allVals : List (List α)) (n root : Nat) (out : List α)
    (hN : 0 < allVals.length) (hroot : root < allVals.length)
    (hlen : ∀ v ∈ allVals, v.length = n)
    (hout : out.length = allVals.length * n) :
    gather_impl_ser t z allVals n root root out
      = some (.ok (((List.range allVals.length).map
          fun k => if k = root then allVals.getD k []
                   else (allVals.getD k []).map f).flatten)) := by
  have hgetlen : ∀ k, k < allVals.length → (allVals.getD k []).length = n := by
    intro k hk
    rw [List.getD_eq_get allVals [] hk]
    exact hlen _ (List.get_mem allVals k hk)
  have htake : ∀ k, k < allVals.length →
      (allVals.getD k []).take n = allVals.getD k [] := by
    intro k hk
    exact List.take_of_length_le (le_of_eq (hgetlen k hk))
  rw [gather_impl_ser_root_unfold t z allVals n root out hN]
  congr 1
  have hdecode : ∀ j, j < allVals.length → j ≠ root →
      ∃ b2, decodeVals t n
          (((payloadsOf t allVals n).flatten).drop
            ((offsetsOf ((payloadsOf t allVals n).map List.length)).getD j 0))
        = ((fun k => if k = root then allVals.getD k []
              else (allVals.getD k []).map f) j, some b2) := by
    intro j hj hjr
    have hjP : j < (payloadsOf t allVals n).length := by
      rw [payloads_length]
      omega
    refine ⟨((payloadsOf t allVals n).drop (j + 1)).flatten, ?_⟩
    rw [recv_drop_at _ j hjP, drop_flatten_cons _ j hjP,
      payloads_getD t allVals n j hj, htake j hj]
    show decodeVals t n _ = (if j = root then allVals.getD j []
      else (allVals.getD j []).map f, some _)
    rw [if_neg hjr]
    have hvl : (allVals.getD j []).length = n := hgetlen j hj
    rw [← hvl]
    exact decodeVals_encodeAll t f hdec (allVals.getD j []) _
  rw [decodeLoop_ok t (allVals.getD root []) _ _ n root allVals.length
      (fun k => if k = root then allVals.getD k [] else (allVals.getD k []).map f)
      (by
        show (if root = root then allVals.getD root []
          else (allVals.getD root []).map f) = (allVals.getD root []).take n
        rw [if_pos rfl]
        exact (htake root hroot).symm)
      hdecode
      (by
        intro j hj
        show (if j = root then allVals.getD j []
          else (allVals.getD j []).map f).length = n
        by_cases hjr : j = root
        · rw [if_pos hjr]
          subst hjr
          exact hgetlen j hj
        · rw [if_neg hjr, List.length_map]
          exact hgetlen j hj)
      allVals.length 0 out (by omega) (by rw [hout, Nat.mul_comm])]
  rw [Nat.mul_zero, List.take_zero, List.nil_append, ← List.range_eq_range']

theorem getD_map_range {γ : Type} (N k : Nat) (g : Nat → γ) (d : γ) (h : k < N) :
    ((List.range N).map g).getD k d = g k := by
  rw [List.getD_eq_get?, List.get?_map, List.get?_range h]
  rfl

theorem resultSlice_map_range {γ : Type} (N n k : Nat) (g : Nat → List γ)
    (hg : ∀ j, j < N → (g j).length = n) (hk : k < N) :
    resultSlice ((List.range N).map g).flatten k n = g k := by
  rw [resultSlice_flatten _ n k ?_ ?_]
  · exact getD_map_range N k g [] hk
  · intro l hl
    obtain ⟨j, hj, rfl⟩ := List.mem_map.mp hl
    exact hg j (List.mem_range.mp hj)
  · rw [List.length_map, List.length_range]
    exact hk

/-- Claim C1: for every group size, per-participant count n and value
assignment, after a completed gather the Assembled Result on the root holds
participant k's value sequence, in order, at indices [k*n, k*n+n), for every
rank k - on the direct path (gather_impl_direct_root) and on the serialized
path (gather_impl_ser with a faithful round-tripping codec). -/
theorem gather_order_preservation {α β : Type} (t : MpiType α β) (z : β)
    (allVals : List (List α)) (n root : Nat) (outD outS : List α)
    (hdec : ∀ a rest, t.dec (t.enc a ++ rest) = some (a, rest))
    (hN : 0 < allVals.length) (hroot : root < allVals.length)
    (hlen : ∀ v ∈ allVals, v.length = n)
    (houtD : outD.length = allVals.length * n)
    (houtS : outS.length = allVals.length * n) :
    (∀ k, k < allVals.length →
      resultSlice (gather_impl_direct_root allVals n outD) k n = allVals.getD k []) ∧
    (∃ res, gather_impl_ser t z allVals n root root outS = some (.ok res) ∧
      ∀ k, k < allVals.length → resultSlice res k n = allVals.getD k []) := by
  have hgetlen : ∀ k, k < allVals.length → (allVals.getD k []).length = n := by
    intro k hk
    rw [List.getD_eq_get allVals [] hk]
    exact hlen _ (List.get_mem allVals k hk)
  constructor
  · intro k hk
    unfold gather_impl_direct_root
    have hmap : allVals.map (fun l => List.take n l) = allVals := by
      rw [List.map_congr_left
        (fun v hv => List.take_of_length_le (le_of_eq (hlen v hv)) : ∀ v ∈ allVals, List.take n v = (fun l => l) v)]
      exact List.map_id' allVals
    rw [hmap, setSlice_full _ _ (by rw [houtD, length_flatten_uniform allVals n hlen])]
    exact resultSlice_flatten allVals n k hlen hk
  · refine ⟨_, gather_ser_root_detector t z (fun a => a) hdec allVals n root outS
      hN hroot hlen houtS, ?_⟩
    intro k hk
    rw [resultSlice_map_range allVals.length n k _ ?_ hk]
    · by_cases hkr : k = root
      · rw [if_pos hkr]
      · rw [if_neg hkr]
        exact List.map_id' _
    · intro j hj
      by_cases hjr : j = root
      · rw [if_pos hjr]
        subst hjr
        exact hgetlen j hj
      · rw [if_neg hjr, List.length_map]
        exact hgetlen j hj

/-- Witness for C1: two ranks, two values each, root 1. -/
theorem gather_order_preservation_witness :
    resultSlice (gather_impl_direct_root [[1, 2], [3, 4]] 2 [9, 9, 9, 9]) 0 2 = [1, 2] ∧
    (∃ res, gather_impl_ser natCodec 0 [[1, 2], [3, 4]] 2 1 1 [8, 8, 8, 8]
        = some (.ok res) ∧
      ∀ k, k < 2 → resultSlice res k 2 = [[1, 2], [3, 4]].getD k []) := by
  have h := gather_order_preservation natCodec 0 [[1, 2], [3, 4]] 2 1 [9, 9, 9, 9]
    [8, 8, 8, 8] (fun a rest => rfl) (by decide) (by decide) (by decide)
    (by decide) (by decide)
  exact ⟨h.1 0 (by decide), h.2⟩

/-- Claim C3: in the serialized path on the root, the root's own slice of the
Assembled Result is copied from its local in_values without going through the
codec, while every other sender's slice is the result of decoding its
segment: with a detector codec whose decode applies f, the root's slice shows
no f while every other slice does. -/
theorem gather_root_self_copy {α β : Type} (t : MpiType α β) (z : β) (f : α → α)
    (hdec : ∀ a rest, t.dec (t.enc a ++ rest) = some (f a, rest))
    (allVals : List (List α)) (n root : Nat) (out : List α)
    (hN : 0 < allVals.length) (hroot : root < allVals.length)
    (hlen : ∀ v ∈ allVals, v.length = n)
    (hout : out.length = allVals.length * n) :
    ∃ res, gather_impl_ser t z allVals n root root out = some (.ok res) ∧
      resultSlice res root n = allVals.getD root [] ∧
      (∀ k, k < allVals.length → k ≠ root →
        resultSlice res k n = (allVals.getD k []).map f) := by
  have hgetlen : ∀ k, k < allVals.length → (allVals.getD k []).length = n := by
    intro k hk
    rw [List.getD_eq_get allVals [] hk]
    exact hlen _ (List.get_mem allVals k hk)
  have hglen : ∀ j, j < allVals.length →
      ((fun k => if k = root then allVals.getD k []
        else (allVals.getD k []).map f) j).length = n := by
    intro j hj
    show (if j = root then allVals.getD j [] else (allVals.getD j []).map f).length = n
    by_cases hjr : j = root
    · rw [if_pos hjr]
      subst hjr
      exact hgetlen j hj
    · rw [if_neg hjr, List.length_map]
      exact hgetlen j hj
  refine ⟨_, gather_ser_root_detector t z f hdec allVals n root out
    hN hroot hlen hout, ?_, ?_⟩
  · rw [resultSlice_map_range allVals.length n root _ hglen hroot]
    show (if root = root then allVals.getD root []
      else (allVals.getD root []).map f) = allVals.getD root []
    rw [if_pos rfl]
  · intro k hk hkr
    rw [resultSlice_map_range allVals.length n k _ hglen hk]
    show (if k = root then allVals.getD k []
      else (allVals.getD k []).map f) = (allVals.getD k []).map f
    rw [if_neg hkr]

/-- Witness for C3: a lossy codec that adds one on decode; the root's own
value 3 survives unchanged while rank 1's value 4 decodes to 5. -/
theorem gather_root_self_copy_witness :
    ∃ res, gather_impl_ser natShiftCodec 0 [[3], [4]] 1 0 0 [0, 0]
        = some (.ok res) ∧
      resultSlice res 0 1 = [3] ∧
      (∀ k, k < 2 → k ≠ 0 → resultSlice res k 1 = ([[3], [4]].getD k []).map (fun b => b + 1)) :=
  gather_root_self_copy natShiftCodec 0 (fun b => b + 1) (fun a rest => rfl)
    [[3], [4]] 1 0 [0, 0] (by decide) (by decide) (by decide) (by decide)

/-- Claim C5: in the serialized path every participant executes the encode
phase and both collective calls; a non-root participant skips only the
root-only offset computation and decode phases, and its buffer is left
unpopulated (the call returns it untouched). -/
theorem gather_symmetric_phases {α β : Type} (t : MpiType α β) (z : β)
    (allVals : List (List α)) (n : Nat) (out : List α) (rank root : Nat)
    (h : rank ≠ root) :
    serPhases rank root
      = [SerPhase.encodePhase, SerPhase.sizeExchange, SerPhase.payloadExchange] ∧
    SerPhase.offsetCompute ∉ serPhases rank root ∧
    SerPhase.decodePhase ∉ serPhases rank root ∧
    serPhases root root
      = [SerPhase.encodePhase, SerPhase.sizeExchange, SerPhase.offsetCompute,
         SerPhase.payloadExchange, SerPhase.decodePhase] ∧
    gather_impl_ser t z allVals n rank root out = some (.ok out) := by
  have h1 : serPhases rank root
      = [SerPhase.encodePhase, SerPhase.sizeExchange, SerPhase.payloadExchange] := by
    simp [serPhases, h]
  refine ⟨h1, ?_, ?_, ?_, ser_nonroot_ok t z allVals n rank root out h⟩
  · rw [h1]
    decide
  · rw [h1]
    decide
  · simp [serPhases]

/-- Witness for C5 at rank 1, root 0. -/
theorem gather_symmetric_phases_witness :
    serPhases 1 0
      = [SerPhase.encodePhase, SerPhase.sizeExchange, SerPhase.payloadExchange] ∧
    SerPhase.offsetCompute ∉ serPhases 1 0 ∧
    SerPhase.decodePhase ∉ serPhases 1 0 ∧
    serPhases 0 0
      = [SerPhase.encodePhase, SerPhase.sizeExchange, SerPhase.offsetCompute,
         SerPhase.payloadExchange, SerPhase.decodePhase] ∧
    gather_impl_ser natCodec 0 [[1], [2]] 1 1 0 [] = some (.ok []) :=
  gather_symmetric_phases natCodec 0 [[1], [2]] 1 [] 1 0 (by decide)

/-- Claim C6: the Size Exchange of the serialized path is the recursive
invocation of the public gather-into-vector operation at T = int, which
resolves to the Direct-Transfer Path and produces exactly the Size Vector on
the root (and nothing on other ranks). -/
theorem size_exchange_via_public_gather (lens : List Nat) (rank root : Nat) :
    gather_int_into_vector lens rank root []
      = some (sizeExchangeSpec lens rank root) ∧
    gather_int_into_vector lens root root []
      = some (gather_impl_direct_root (lens.map fun x => [x]) 1
          (vecResize [] lens.length 0)) := by
  constructor
  · unfold sizeExchangeSpec
    by_cases h : rank = root
    · rw [if_pos h, h]
      exact gather_int_root lens root
    · rw [if_neg h]
      simp [gather_int_into_vector, gather_scalar_nonroot_int, h]
  · unfold gather_int_into_vector
    rw [if_pos rfl]

/-- Claim C8: the two public overloads that omit a receive buffer enforce,
by assertion, the precondition that the caller is not the root: the
assertion fires (none) exactly when rank = root. -/
theorem nonroot_overloads_assert {α β : Type} (t : MpiType α β) (z : β)
    (allScalars : List α) (allVals : List (List α)) (n rank root : Nat) :
    (gather_scalar_nonroot t z allScalars rank root = none ↔ rank = root) ∧
    (gather_array_nonroot t z allVals n rank root = none ↔ rank = root) := by
  constructor
  · by_cases h : rank = root
    · simp [gather_scalar_nonroot, h]
    · have hser := ser_nonroot_ok t z (allScalars.map fun a => [a]) 1 rank root [] h
      simp [gather_scalar_nonroot, h, hser]
  · by_cases h : rank = root
    · simp [gather_array_nonroot, h]
    · have hser := ser_nonroot_ok t z allVals n rank root [] h
      simp [gather_array_nonroot, h, hser]

/-! Length preservation of the serialized call, for the auto-resizing frame
claim. -/

theorem gather_impl_ser_nil {α β : Type} (t : MpiType α β) (z : β) (n root : Nat)
    (out : List α) : gather_impl_ser t z ([] : List (List α)) n root root out = none := by
  unfold gather_impl_ser
  rw [show (payloadsOf t ([] : List (List α)) n).map List.length = ([] : List Nat)
    from rfl]
  rw [gather_int_root [] root]
  simp only [Option.some_bind, eq_self_iff_true, if_true]
  rw [show List.replicate ([] : List (List α)).length (0 : Nat) = [] from rfl]
  rw [show sizes2offset [] [] = none from rfl]
  rfl

theorem gather_impl_ser_len {α β : Type} (t : MpiType α β) (z : β)
    (allVals : List (List α)) (n rank root : Nat) (out : List α) :
    ∀ r, gather_impl_ser t z allVals n rank root out = some r →
      exceptLen r = out.length := by
  intro r h
  by_cases hr : rank = root
  · rw [hr] at h
    by_cases hN : 0 < allVals.length
    · rw [gather_impl_ser_root_unfold t z allVals n root out hN] at h
      have h2 := Option.some.inj h
      rw [← h2]
      exact decodeLoop_len t _ _ _ n root allVals.length 0 out
    · have hnil : allVals = [] := List.length_eq_zero.mp (by omega)
      subst hnil
      rw [gather_impl_ser_nil t z n root out] at h
      exact Option.noConfusion h
  · rw [ser_nonroot_ok t z allVals n rank root out hr] at h
    have h2 := Option.some.inj h
    rw [← h2]
    rfl

/-- Claim C7: the auto-resizing overloads size the output container to
exactly N (scalar form) resp. N*n (array form) when the caller is the root —
any outcome the delegated call produces has exactly that length — and leave
the container completely untouched when the caller is not the root. -/
theorem autoresize_overloads_frame {α β : Type} (t : MpiType α β) (z : β) (d : α)
    (allScalars : List α) (allVals : List (List α)) (n rank root : Nat)
    (out1 out2 : List α) :
    (rank ≠ root →
      gather_scalar_into_vector t z d allScalars rank root out1 = some (.ok out1) ∧
      gather_array_into_vector t z d allVals n rank root out2 = some (.ok out2)) ∧
    (vecResize out1 allScalars.length d).length = allScalars.length ∧
    (vecResize out2 (allVals.length * n) d).length = allVals.length * n ∧
    (rank = root →
      (∀ r, gather_scalar_into_vector t z d allScalars rank root out1 = some r →
        exceptLen r = allScalars.length) ∧
      (∀ r, gather_array_into_vector t z d allVals n rank root out2 = some r →
        exceptLen r = allVals.length * n)) := by
  refine ⟨?_, vecResize_length out1 allScalars.length d,
    vecResize_length out2 _ d, ?_⟩
  · intro h
    constructor
    · have hser := ser_nonroot_ok t z (allScalars.map fun a => [a]) 1 rank root [] h
      simp [gather_scalar_into_vector, gather_scalar_nonroot, h, hser]
    · have hser := ser_nonroot_ok t z allVals n rank root [] h
      simp [gather_array_into_vector, gather_array_nonroot, h, hser]
  · intro h
    constructor
    · intro r hres
      rw [gather_scalar_into_vector, if_pos h, gather_scalar_ptr, gather_array_ptr,
        if_pos h] at hres
      cases hd : t.isMpiDatatype
      · rw [hd, if_neg (by decide : ¬(false = true))] at hres
        rw [gather_impl_ser_len t z (allScalars.map fun a => [a]) 1 rank root
          (vecResize out1 allScalars.length d) r hres]
        exact vecResize_length out1 allScalars.length d
      · rw [hd, if_pos rfl] at hres
        have h2 := Option.some.inj hres
        rw [← h2]
        show (setSlice (vecResize out1 allScalars.length d) 0 _).length
          = allScalars.length
        rw [setSlice_length, vecResize_length]
    · intro r hres
      rw [gather_array_into_vector, if_pos h, gather_array_ptr, if_pos h] at hres
      cases hd : t.isMpiDatatype
      · rw [hd, if_neg (by decide : ¬(false = true))] at hres
        rw [gather_impl_ser_len t z allVals n rank root
          (vecResize out2 (allVals.length * n) d) r hres]
        exact vecResize_length out2 _ d
      · rw [hd, if_pos rfl] at hres
        have h2 := Option.some.inj hres
        rw [← h2]
        show (setSlice (vecResize out2 (allVals.length * n) d) 0 _).length
          = allVals.length * n
        rw [setSlice_length, vecResize_length]

/-- Witness for C7: non-root caller (rank 1, root 0) leaves [9] untouched;
root caller's outcome has length 2 * 1. -/
theorem autoresize_overloads_frame_witness :
    gather_scalar_into_vector natCodec 0 0 [5, 6] 1 0 [9] = some (.ok [9]) ∧
    (∀ r, gather_array_into_vector natCodec 0 0 [[1], [2]] 1 0 0 [] = some r →
      exceptLen r = 2) := by
  refine ⟨((autoresize_overloads_frame natCodec 0 0 [5, 6] [[1], [2]] 1 1 0
    [9] []).1 (by decide)).1, ?_⟩
  intro r hr
  exact ((autoresize_overloads_frame natCodec 0 0 [5, 6] [[1], [2]] 1 0 0
    [9] []).2.2.2 rfl).2 r hr

/-! The n = 0 degenerate case. -/

theorem map_zero_replicate {γ : Type} (g : γ → Nat) (hg : ∀ x, g x = 0) :
    ∀ (L : List γ), L.map g = List.replicate L.length 0 := by
  intro L
  induction L with
  | nil => rfl
  | cons x xs ih =>
    rw [List.map_cons, hg x, List.length_cons, List.replicate_succ, ih]

theorem payloads_zero_lens {α β : Type} (t : MpiType α β) (allVals : List (List α)) :
    (payloadsOf t allVals 0).map List.length = List.replicate allVals.length 0 := by
  unfold payloadsOf
  rw [List.map_map]
  exact map_zero_replicate (List.length ∘ fun v => encodeAll t (List.take 0 v))
    (fun v => rfl) allVals

theorem get?_replicate_lt {γ : Type} (x : γ) : ∀ (N k : Nat), k < N →
    (List.replicate N x).get? k = some x := by
  intro N
  induction N with
  | zero => intro k h; omega
  | succ N ih =>
    intro k h
    cases k with
    | zero => rfl
    | succ k => exact ih k (by omega)

theorem offsetsOf_replicate_zero (N : Nat) :
    offsetsOf (List.replicate N 0) = List.replicate N 0 := by
  apply List.ext_get?
  intro k
  by_cases hk : k < N
  · rw [offsetsOf_get? _ k (by rw [List.length_replicate]; exact hk)]
    rw [get?_replicate_lt 0 N k hk, List.take_replicate]
    rw [show ((List.replicate (min k N) 0).sum) = 0 from by simp]
  · rw [List.get?_eq_none.mpr (by rw [offsetsOf_length, List.length_replicate]; omega)]
    rw [List.get?_eq_none.mpr (by rw [List.length_replicate]; omega)]

theorem sizes2offset_zeros (N : Nat) (hN : 0 < N) :
    sizes2offset (List.replicate N 0) (List.replicate N 0)
      = some (List.replicate N 0) := by
  rw [sizes2offset_eq _ _
    (List.ne_nil_of_length_pos (by rw [List.length_replicate]; omega))
    (by rw [List.length_replicate])]
  rw [offsetsOf_replicate_zero]

theorem flatten_take_zero {γ : Type} : ∀ (L : List (List γ)),
    ((L.map fun l => l.take 0).flatten) = [] := by
  intro L
  induction L with
  | nil => rfl
  | cons l ls ih => simp [ih]

theorem vecResize_zero {γ : Type} (l : List γ) (d : γ) : vecResize l 0 d = [] := by
  unfold vecResize
  rw [if_pos (Nat.zero_le _)]
  rfl

/-- Claim C4: n = 0 is permitted and completes without error on every rank:
every encode yields a zero-length payload, the Size Vector is all zeros, the
offset computation still succeeds, and the auto-resizing array overload
yields an empty Assembled Result on the root. -/
theorem gather_zero_count {α β : Type} (t : MpiType α β) (z : β) (d : α)
    (allVals : List (List α)) (root : Nat)
    (hN : 0 < allVals.length) (hroot : root < allVals.length) :
    (∀ v : List α, encodeAll t (v.take 0) = []) ∧
    (payloadsOf t allVals 0).map List.length = List.replicate allVals.length 0 ∧
    gather_int_into_vector ((payloadsOf t allVals 0).map List.length) root root []
      = some (List.replicate allVals.length 0) ∧
    sizes2offset (List.replicate allVals.length 0) (List.replicate allVals.length 0)
      = some (List.replicate allVals.length 0) ∧
    (∀ rank, rank < allVals.length → ∀ out : List α,
      ∃ res, gather_array_into_vector t z d allVals 0 rank root out
          = some (.ok res) ∧ (rank = root → res = [])) := by
  refine ⟨fun v => rfl, payloads_zero_lens t allVals, ?_,
    sizes2offset_zeros allVals.length hN, ?_⟩
  · rw [payloads_zero_lens t allVals]
    exact gather_int_root _ root
  · intro rank hrank out
    by_cases h : rank = root
    · subst h
      refine ⟨[], ?_, fun _ => rfl⟩
      rw [gather_array_into_vector, if_pos rfl, Nat.mul_zero, vecResize_zero,
        gather_array_ptr, if_pos rfl]
      cases hd : t.isMpiDatatype
      · rw [if_neg (by decide)]
        rw [gather_impl_ser_root_unfold t z allVals 0 rank [] hN]
        rw [decodeLoop_n_zero]
      · rw [if_pos rfl]
        unfold gather_impl_direct_root
        rw [flatten_take_zero]
        rfl
    · refine ⟨out, ?_, fun hc => absurd hc h⟩
      have hser := ser_nonroot_ok t z allVals 0 rank root [] h
      simp [gather_array_into_vector, gather_array_nonroot, h, hser]

/-- Witness for C4 at two ranks, root 0, caller 0. -/
theorem gather_zero_count_witness :
    ∃ res, gather_array_into_vector natCodec 0 0 [[1], [2]] 0 0 0 [7]
        = some (.ok res) ∧ (0 = 0 → res = []) :=
  (gather_zero_count natCodec 0 0 [[1], [2]] 0 (by decide)
    (by decide)).2.2.2.2 0 (by decide) [7]

/-! The decode loop when one sender's segment fails to decode. -/

theorem drop_write_block {γ : Type} (out B : List γ) (p m : Nat)
    (hp : p + B.length ≤ out.length) (hm : p + B.length ≤ m) :
    (out.take p ++ B ++ out.drop (p + B.length)).drop m = out.drop m := by
  have hAB : (out.take p ++ B).length = p + B.length := by
    rw [List.length_append, List.length_take]
    omega
  rw [show m = (p + B.length) + (m - (p + B.length)) from by omega]
  rw [← hAB, List.drop_append, List.drop_drop]

theorem decodeLoop_err {α β : Type} (t : MpiType α β) (lv : List α) (recv : List β)
    (offsets : List Nat) (n root N j : Nat) (g : Nat → List α)
    (hroot : g root = lv.take n)
    (hjN : j < N) (hjr : j ≠ root)
    (hfail : (decodeVals t n (recv.drop (offsets.getD j 0))).2 = none)
    (hdecode : ∀ k, k < j → k ≠ root →
      ∃ b2, decodeVals t n (recv.drop (offsets.getD k 0)) = (g k, some b2))
    (hglen : ∀ k, k < j → (g k).length = n) :
    ∀ (fuel src : Nat) (out : List α), src + fuel = N → src ≤ j →
      out.length = n * N →
      decodeLoop t lv recv offsets n root fuel src out
        = .error (out.take (n * src)
            ++ ((List.range' src (j - src)).map g).flatten
            ++ (decodeVals t n (recv.drop (offsets.getD j 0))).1
            ++ out.drop (n * j
                + (decodeVals t n (recv.drop (offsets.getD j 0))).1.length)) := by
  have hpjle : (decodeVals t n (recv.drop (offsets.getD j 0))).1.length ≤ n :=
    decodeVals_length_le t n _
  intro fuel
  induction fuel with
  | zero =>
    intro src out hsrc hsj hout
    omega
  | succ fuel ih =>
    intro src out hsrc hsj hout
    have hsrcN : src < N := by omega
    have hmulj : n * (j + 1) ≤ n * N := Nat.mul_le_mul_left n (by omega)
    rw [Nat.mul_succ] at hmulj
    by_cases hsrcj : src = j
    · subst hsrcj
      rw [decodeLoop, if_neg hjr]
      have hdv : decodeVals t n (recv.drop (offsets.getD src 0))
          = ((decodeVals t n (recv.drop (offsets.getD src 0))).1, none) := by
        rw [← hfail]
      rw [decodeInto_eq_error t n _ _ (n * src) out hdv]
      rw [setSlice_concat _ out (n * src) (by omega)]
      rw [show src - src = 0 from by omega]
      rw [show List.range' src 0 = [] from rfl, List.map_nil, List.flatten_nil]
      simp [List.append_assoc]
    · have hsj2 : src < j := by omega
      have hmulsrc : n * (src + 1) ≤ n * j := Nat.mul_le_mul_left n (by omega)
      rw [Nat.mul_succ] at hmulsrc
      have hlesrc : n * src + n ≤ out.length := by omega
      by_cases hsr : src = root
      · rw [decodeLoop, if_pos hsr]
        have hgs : g src = lv.take n := by rw [hsr, hroot]
        have hl2 : (lv.take n).length = n := by rw [← hgs]; exact hglen src hsj2
        have e1 : setSlice out (n * src) (lv.take n)
            = out.take (n * src) ++ lv.take n
              ++ out.drop (n * src + (lv.take n).length) := by
          rw [setSlice_concat _ _ _ (by rw [hl2]; omega)]
        rw [e1]
        have hABC : (out.take (n * src) ++ lv.take n
            ++ out.drop (n * src + (lv.take n).length)).length = n * N := by
          rw [List.length_append, List.length_append, List.length_take,
            List.length_drop, hl2]
          omega
        rw [ih (src + 1) _ (by omega) (by omega) hABC]
        congr 1
        have hAB : (out.take (n * src) ++ lv.take n).length = n * (src + 1) := by
          rw [List.length_append, List.length_take, hl2, Nat.mul_succ]
          omega
        rw [List.take_left' hAB]
        rw [drop_write_block out (lv.take n) (n * src) _ (by rw [hl2]; omega)
          (by rw [hl2]; omega)]
        rw [show j - src = (j - (src + 1)) + 1 from by omega]
        rw [List.range'_succ, List.map_cons, List.flatten_cons, hgs]
        simp [List.append_assoc]
      · rw [decodeLoop, if_neg hsr]
        obtain ⟨b2, hdv⟩ := hdecode src hsj2 hsr
        rw [decodeInto_eq_ok t n _ _ b2 (n * src) out hdv]
        show decodeLoop t lv recv offsets n root fuel (src + 1)
            (setSlice out (n * src) (g src)) = _
        have hl2 : (g src).length = n := hglen src hsj2
        have e1 : setSlice out (n * src) (g src)
            = out.take (n * src) ++ g src
              ++ out.drop (n * src + (g src).length) := by
          rw [setSlice_concat _ _ _ (by rw [hl2]; omega)]
        rw [e1]
        have hABC : (out.take (n * src) ++ g src
            ++ out.drop (n * src + (g src).length)).length = n * N := by
          rw [List.length_append, List.length_append, List.length_take,
            List.length_drop, hl2]
          omega
        rw [ih (src + 1) _ (by omega) (by omega) hABC]
        congr 1
        have hAB : (out.take (n * src) ++ g src).length = n * (src + 1) := by
          rw [List.length_append, List.length_take, hl2, Nat.mul_succ]
          omega
        rw [List.take_left' hAB]
        rw [drop_write_block out (g src) (n * src) _ (by rw [hl2]; omega)
          (by rw [hl2]; omega)]
        rw [show j - src = (j - (src + 1)) + 1 from by omega]
        rw [List.range'_succ, List.map_cons, List.flatten_cons]
        simp [List.append_assoc]

theorem take_append_ge {γ : Type} (l₁ l₂ : List γ) (m : Nat) (h : l₁.length ≤ m) :
    (l₁ ++ l₂).take m = l₁ ++ l₂.take (m - l₁.length) := by
  rw [show m = l₁.length + (m - l₁.length) from by omega, List.take_append,
    Nat.add_sub_cancel_left]

/-- Claim C9: if decoding sender j's segment fails on the root, the error is
fatal and propagates to the caller (the call returns the exception outcome);
the segments of senders below j hold exactly their already-decoded values,
the root's own copied slice (when root < j) is intact, sender j's slice is
only partially overwritten by the values decoded before the failure, and
every slice above j is left exactly as it was in the caller's buffer. -/
theorem gather_decode_failure {α β : Type} (t : MpiType α β) (z : β)
    (allVals : List (List α)) (n root j : Nat) (out : List α)
    (hroot : root < allVals.length) (hj : j < allVals.length) (hjr : j ≠ root)
    (hlen : ∀ v ∈ allVals, v.length = n)
    (hout : out.length = allVals.length * n)
    (hfail : (decodeVals t n (((payloadsOf t allVals n).drop j).flatten)).2 = none)
    (hok : ∀ k, k < j → k ≠ root →
      ((decodeVals t n (((payloadsOf t allVals n).drop k).flatten)).2).isSome) :
    ∃ res, gather_impl_ser t z allVals n root root out = some (.error res) ∧
      res.length = allVals.length * n ∧
      (∀ k, k < j → k ≠ root →
        resultSlice res k n
          = (decodeVals t n (((payloadsOf t allVals n).drop k).flatten)).1) ∧
      (root < j → resultSlice res root n = allVals.getD root []) ∧
      (resultSlice res j n
        = (decodeVals t n (((payloadsOf t allVals n).drop j).flatten)).1
          ++ (resultSlice out j n).drop
            ((decodeVals t n (((payloadsOf t allVals n).drop j).flatten)).1.length)) ∧
      (∀ k, j < k → k < allVals.length →
        resultSlice res k n = resultSlice out k n) := by
  have hN : 0 < allVals.length := by omega
  have hgetlen : ∀ k, k < allVals.length → (allVals.getD k []).length = n := by
    intro k hk
    rw [List.getD_eq_get allVals [] hk]
    exact hlen _ (List.get_mem allVals k hk)
  have hconv : ∀ k, k < allVals.length →
      (((payloadsOf t allVals n).flatten).drop
        ((offsetsOf ((payloadsOf t allVals n).map List.length)).getD k 0))
      = ((payloadsOf t allVals n).drop k).flatten := by
    intro k hk
    exact recv_drop_at _ k (by rw [payloads_length]; omega)
  have hfail2 : (decodeVals t n
      (((payloadsOf t allVals n).flatten).drop
        ((offsetsOf ((payloadsOf t allVals n).map List.length)).getD j 0))).2
      = none := by
    rw [hconv j (by omega)]
    exact hfail
  have hdecode2 : ∀ k, k < j → k ≠ root →
      ∃ b2, decodeVals t n
          (((payloadsOf t allVals n).flatten).drop
            ((offsetsOf ((payloadsOf t allVals n).map List.length)).getD k 0))
        = ((fun m => if m = root then (allVals.getD root []).take n
            else (decodeVals t n (((payloadsOf t allVals n).drop m).flatten)).1) k,
           some b2) := by
    intro k hk hkr
    obtain ⟨b2, hb2⟩ := Option.isSome_iff_exists.mp (hok k hk hkr)
    refine ⟨b2, ?_⟩
    rw [hconv k (by omega)]
    show decodeVals t n (((payloadsOf t allVals n).drop k).flatten)
      = (if k = root then (allVals.getD root []).take n
         else (decodeVals t n (((payloadsOf t allVals n).drop k).flatten)).1,
         some b2)
    rw [if_neg hkr, ← hb2]
  have hglen2 : ∀ k, k < j →
      ((fun m => if m = root then (allVals.getD root []).take n
        else (decodeVals t n (((payloadsOf t allVals n).drop m).flatten)).1) k).length
        = n := by
    intro k hk
    show (if k = root then (allVals.getD root []).take n
      else (decodeVals t n (((payloadsOf t allVals n).drop k).flatten)).1).length = n
    by_cases hkr : k = root
    · rw [if_pos hkr, List.take_of_length_le (le_of_eq (hgetlen root hroot))]
      exact hgetlen root hroot
    · rw [if_neg hkr]
      exact decodeVals_length_of_isSome t n _ (hok k hk hkr)
  have hgroot : (fun m => if m = root then (allVals.getD root []).take n
      else (decodeVals t n (((payloadsOf t allVals n).drop m).flatten)).1) root
      = (allVals.getD root []).take n := by
    show (if root = root then (allVals.getD root []).take n
      else (decodeVals t n (((payloadsOf t allVals n).drop root).flatten)).1)
      = (allVals.getD root []).take n
    rw [if_pos rfl]
  rw [gather_impl_ser_root_unfold t z allVals n root out hN]
  rw [decodeLoop_err t (allVals.getD root []) ((payloadsOf t allVals n).flatten)
    (offsetsOf ((payloadsOf t allVals n).map List.length)) n root allVals.length j
    (fun m => if m = root then (allVals.getD root []).take n
      else (decodeVals t n (((payloadsOf t allVals n).drop m).flatten)).1)
    hgroot hj hjr hfail2 hdecode2 hglen2
    allVals.length 0 out (by omega) (by omega) (by rw [hout, Nat.mul_comm])]
  rw [Nat.mul_zero, List.take_zero, List.nil_append,
    show j - 0 = j from rfl, ← List.range_eq_range', hconv j (by omega)]
  have hpjle : (decodeVals t n (((payloadsOf t allVals n).drop j).flatten)).1.length
      ≤ n := decodeVals_length_le t n _
  have hmem : ∀ l ∈ (List.range j).map
      (fun m => if m = root then (allVals.getD root []).take n
        else (decodeVals t n (((payloadsOf t allVals n).drop m).flatten)).1),
      l.length = n := by
    intro l hl
    obtain ⟨k, hk, rfl⟩ := List.mem_map.mp hl
    exact hglen2 k (List.mem_range.mp hk)
  have hJ : (((List.range j).map
      (fun m => if m = root then (allVals.getD root []).take n
        else (decodeVals t n (((payloadsOf t allVals n).drop m).flatten)).1)).flatten).length
      = j * n := by
    rw [length_flatten_uniform _ n hmem, List.length_map, List.length_range]
  have hmulj : n * (j + 1) ≤ n * allVals.length := Nat.mul_le_mul_left n (by omega)
  rw [Nat.mul_succ] at hmulj
  refine ⟨_, rfl, ?_, ?_, ?_, ?_, ?_⟩
  · -- length of the partial result
    rw [List.length_append, List.length_append, hJ, List.length_drop, hout]
    have h1 : n * j = j * n := Nat.mul_comm n j
    have h2 : allVals.length * n = n * allVals.length := Nat.mul_comm _ n
    omega
  · -- slices below j, other senders
    intro k hk hkr
    rw [List.append_assoc]
    rw [resultSlice_append_left _ _ k n (by
      rw [hJ]
      have h1 := Nat.mul_le_mul_right n (show k + 1 ≤ j from by omega)
      rw [Nat.succ_mul] at h1
      omega)]
    rw [resultSlice_map_range j n k _ hglen2 hk]
    show (if k = root then (allVals.getD root []).take n
      else (decodeVals t n (((payloadsOf t allVals n).drop k).flatten)).1)
      = (decodeVals t n (((payloadsOf t allVals n).drop k).flatten)).1
    rw [if_neg hkr]
  · -- the root's own copied slice
    intro hrj
    rw [List.append_assoc]
    rw [resultSlice_append_left _ _ root n (by
      rw [hJ]
      have h1 := Nat.mul_le_mul_right n (show root + 1 ≤ j from by omega)
      rw [Nat.succ_mul] at h1
      omega)]
    rw [resultSlice_map_range j n root _ hglen2 hrj]
    show (if root = root then (allVals.getD root []).take n
      else (decodeVals t n (((payloadsOf t allVals n).drop root).flatten)).1)
      = allVals.getD root []
    rw [if_pos rfl]
    exact List.take_of_length_le (le_of_eq (hgetlen root hroot))
  · -- the failing sender's partially written slice
    unfold resultSlice
    rw [List.append_assoc, List.drop_left' hJ]
    rw [take_append_ge _ _ n hpjle]
    congr 1
    rw [List.drop_take, List.drop_drop]
    rw [Nat.mul_comm j n]
  · -- slices above j are untouched
    intro k hkj hkN
    have hP : (((List.range j).map
        (fun m => if m = root then (allVals.getD root []).take n
          else (decodeVals t n (((payloadsOf t allVals n).drop m).flatten)).1)).flatten
        ++ (decodeVals t n (((payloadsOf t allVals n).drop j).flatten)).1).length
        = n * j + (decodeVals t n (((payloadsOf t allVals n).drop j).flatten)).1.length := by
      rw [List.length_append, hJ, Nat.mul_comm]
    rw [show n * j + (decodeVals t n (((payloadsOf t allVals n).drop j).flatten)).1.length
      = (((List.range j).map
        (fun m => if m = root then (allVals.getD root []).take n
          else (decodeVals t n (((payloadsOf t allVals n).drop m).flatten)).1)).flatten
        ++ (decodeVals t n (((payloadsOf t allVals n).drop j).flatten)).1).length
      from hP.symm]
    rw [resultSlice_append_drop _ out k n (by
      rw [hP]
      have h1 := Nat.mul_le_mul_right n (show j + 1 ≤ k from by omega)
      rw [Nat.succ_mul] at h1
      have h2 : n * j = j * n := Nat.mul_comm n j
      omega)]

/-- Witness for C9: three ranks, root 0, rank 2's byte 99 fails to decode;
rank 1's slice is already decoded, rank 2's slice keeps the caller's 7. -/
theorem gather_decode_failure_witness :
    ∃ res, gather_impl_ser natBadCodec 0 [[1], [2], [99]] 1 0 0 [7, 7, 7]
        = some (.error res) ∧
      res.length = 3 ∧
      (∀ k, k < 2 → k ≠ 0 →
        resultSlice res k 1
          = (decodeVals natBadCodec 1
              (((payloadsOf natBadCodec [[1], [2], [99]] 1).drop k).flatten)).1) ∧
      (0 < 2 → resultSlice res 0 1 = [1]) ∧
      (resultSlice res 2 1
        = (decodeVals natBadCodec 1
            (((payloadsOf natBadCodec [[1], [2], [99]] 1).drop 2).flatten)).1
          ++ (resultSlice [7, 7, 7] 2 1).drop
            ((decodeVals natBadCodec 1
              (((payloadsOf natBadCodec [[1], [2], [99]] 1).drop 2).flatten)).1.length)) ∧
      (∀ k, 2 < k → k < 3 → resultSlice res k 1 = resultSlice [7, 7, 7] k 1) :=
  gather_decode_failure natBadCodec 0 [[1], [2], [99]] 1 0 2 [7, 7, 7]
    (by decide) (by decide) (by decide) (by decide) (by decide) (by decide)
    (by decide)

end GatherHpp
